import Mathlib

/-!
Shallow embedding of the URL-rewriting pipeline of the TGLInkara bot.

Sources embedded:
  * the message rewriter module (unnamed source file: `processMessage`,
    `extractUrls`, `isValidUrl`),
  * `urlShortener.js` (`shortenUrl`, `shortenUrlWithRetry`),
  * `config.js` (`MAX_RETRIES`).

Strings are modelled as Lean `String` / `List Char`.  The JavaScript regex
`/(https?:\/\/[^\s<>"{}|\\^`\[\]]+|ftp:\/\/[^\s<>"{}|\\^`\[\]]+|www\.[^\s<>"{}|\\^`\[\]]+)/gi`
is embedded as a deterministic left-to-right scanner: at each position the
alternatives are tried in the regex's order (`https://`, then `http://`,
then `ftp://`, then `www.`), matching is ASCII-case-insensitive on the
scheme token, and the body `[^...]+` greedily takes every following
non-delimiter character.  This is exactly the backtracking behaviour of the
regex on these first-character-disjoint alternatives.

The remote service (axios GET to the linkara API) is modelled as an oracle
`RemoteSvc` giving, for each outbound request index, api key and processed
URL, either the shortened URL (HTTP 2xx + `status: success` + a
`shortenedUrl` field) or an error message (any of the failure causes:
transport/timeout, application error, malformed response).  Each embedded
operation threads the index of the next outbound request and returns the
list of processed URLs actually sent, in order, so that call counts and
call order are provable.
-/

/-- ASCII-lowercasing on character codes (the effect of the regex `i` flag
and of comparing scheme tokens case-insensitively). -/
def lcn (c : Char) : Nat :=
  if 65 ≤ c.toNat ∧ c.toNat ≤ 90 then c.toNat + 32 else c.toNat

/-- Case-insensitive single-character match. -/
def charCI (p c : Char) : Bool :=
  lcn c == lcn p

/-- Delimiter set of the URL regex: the characters excluded by
`[^\s<>"{}|\\^`\[\]]`, by character code
(9,10,11,12,13,32 for `\s`; 60 `<`, 62 `>`, 34 `"`, 123, 125 the braces,
124 `|`, 92 backslash, 94 `^`, 96 backtick, 91 `[`, 93 `]`). -/
def isUrlDelimN (n : Nat) : Bool :=
  n == 32 || n == 9 || n == 10 || n == 11 || n == 12 || n == 13 ||
  n == 60 || n == 62 || n == 34 || n == 123 || n == 125 || n == 124 ||
  n == 92 || n == 94 || n == 96 || n == 91 || n == 93

def isUrlDelim (c : Char) : Bool :=
  isUrlDelimN c.toNat

/-- Test `startsCI pat cs`: `cs` starts with `pat`, ASCII-case-insensitively. -/
def startsCI : List Char → List Char → Bool
  | [], _ => true
  | _ :: _, [] => false
  | p :: ps, c :: cs => charCI p c && startsCI ps cs

/-- Which regex alternative matches at the current position, returning the
length of the matched scheme token.  Alternatives in the regex's order;
`https?://` is determinised as greedy `https://` first, then `http://`. -/
def urlPrefixAt (cs : List Char) : Option Nat :=
  if startsCI "https://".data cs then some 8
  else if startsCI "http://".data cs then some 7
  else if startsCI "ftp://".data cs then some 6
  else if startsCI "www.".data cs then some 4
  else none

/-- One regex match attempt at the current position: scheme token followed
by a non-empty greedy run of non-delimiter characters.  Returns the matched
token (in original case) and the remainder of the input after it. -/
def urlTokenAt (cs : List Char) : Option (List Char × List Char) :=
  match urlPrefixAt cs with
  | none => none
  | some k =>
    let body := (cs.drop k).takeWhile (fun c => !isUrlDelim c)
    if body.isEmpty then none
    else some (cs.take k ++ body, cs.drop (k + body.length))

theorem urlTokenAt_rest_length_lt {cs : List Char} {p : List Char × List Char}
    (h : urlTokenAt cs = some p) : p.2.length < cs.length := by
  unfold urlTokenAt at h
  cases hp : urlPrefixAt cs with
  | none => rw [hp] at h; cases h
  | some k =>
    rw [hp] at h
    simp only at h
    by_cases hb : ((cs.drop k).takeWhile (fun c => !isUrlDelim c)).isEmpty
    · rw [if_pos hb] at h; cases h
    · rw [if_neg hb] at h
      have hdrop : cs.drop k ≠ [] := by
        intro hnil
        simp [hnil] at hb
      have hk : k < cs.length := by
        by_contra hle
        exact hdrop (List.drop_eq_nil_of_le (by omega))
      have hblen : 0 <
          ((cs.drop k).takeWhile (fun c => !isUrlDelim c)).length := by
        cases hx : (cs.drop k).takeWhile (fun c => !isUrlDelim c) with
        | nil => rw [hx] at hb; simp at hb
        | cons a l => simp [hx]
      cases h
      simp only [List.length_drop]
      omega

/-- Scanner of `message.match(urlRegex)`, at the character-list level: scan left to
right; on a match emit the token and continue after it, otherwise advance
one character.  Structural recursion on a fuel argument (any fuel at least
the length of the input gives the scan's result; see `extractAux_congr`). -/
def extractAux : Nat → List Char → List (List Char)
  | 0, _ => []
  | fuel + 1, cs =>
    match urlTokenAt cs with
    | some tr => tr.1 :: extractAux fuel tr.2
    | none =>
      match cs with
      | [] => []
      | _ :: rest => extractAux fuel rest

def extractCore (cs : List Char) : List (List Char) :=
  extractAux cs.length cs

theorem extractAux_nil (fuel : Nat) : extractAux fuel [] = [] := by
  cases fuel with
  | zero => rfl
  | succ f => rfl

theorem extractAux_congr :
    ∀ (fuel₁ : Nat) (cs : List Char) (fuel₂ : Nat),
      cs.length ≤ fuel₁ → cs.length ≤ fuel₂ →
      extractAux fuel₁ cs = extractAux fuel₂ cs := by
  intro fuel₁
  induction fuel₁ with
  | zero =>
    intro cs fuel₂ h₁ _
    have : cs = [] := List.length_eq_zero.mp (by omega)
    subst this
    rw [extractAux_nil, extractAux_nil]
  | succ f ih =>
    intro cs fuel₂ h₁ h₂
    cases fuel₂ with
    | zero =>
      have : cs = [] := List.length_eq_zero.mp (by omega)
      subst this
      rw [extractAux_nil, extractAux_nil]
    | succ g =>
      cases hu : urlTokenAt cs with
      | some tr =>
        have hlt := urlTokenAt_rest_length_lt hu
        simp only [extractAux, hu]
        rw [ih tr.2 g (by omega) (by omega)]
      | none =>
        cases cs with
        | nil => rw [extractAux_nil, extractAux_nil]
        | cons c rest =>
          simp only [extractAux, hu]
          exact ih rest g (by simp at h₁; omega) (by simp at h₂; omega)

theorem extractCore_some {cs : List Char} {tr : List Char × List Char}
    (h : urlTokenAt cs = some tr) :
    extractCore cs = tr.1 :: extractCore tr.2 := by
  have hlt := urlTokenAt_rest_length_lt h
  have hpos : 0 < cs.length := by omega
  unfold extractCore
  obtain ⟨n, hn⟩ : ∃ n, cs.length = n + 1 := ⟨cs.length - 1, by omega⟩
  rw [hn]
  simp only [extractAux, h]
  rw [extractAux_congr n tr.2 tr.2.length (by omega) (by omega)]

theorem extractCore_cons_none {c : Char} {rest : List Char}
    (h : urlTokenAt (c :: rest) = none) :
    extractCore (c :: rest) = extractCore rest := by
  unfold extractCore
  simp only [List.length_cons, extractAux, h]

theorem extractCore_nil : extractCore [] = [] := rfl

/-- Model of `extractUrls` (and the `message.match(urlRegex) || []` step of
`processMessage`) on a string.  The JS guard for falsy / non-string input
lives in the `JsVal` wrappers below; on `""` this returns `[]` exactly as
the guard does. -/
def extractUrls (message : String) : List String :=
  (extractCore message.data).map String.mk

example : extractUrls "see http://a.b and www.c d" = ["http://a.b", "www.c"] := by decide
example : extractUrls "no links here" = [] := by decide
example : extractUrls "x HTTPS://A.b" = ["HTTPS://A.b"] := by decide
example : extractUrls "http:// y www." = [] := by decide
example : extractUrls "go http://a.b http://a.b" = ["http://a.b", "http://a.b"] := by decide

/-- JavaScript `String.prototype.includes` on character lists
(`cleanUrl.includes('linkara.xyz')`). -/
def jsIncludes : List Char → List Char → Bool
  | [], pat => pat.isEmpty
  | c :: t, pat => pat.isPrefixOf (c :: t) || jsIncludes t pat

/-- JavaScript whitespace test used by `String.prototype.trim`
(restricted to the ASCII space class, which also matches the regex
delimiters' whitespace part). -/
def isJsSpace (c : Char) : Bool :=
  c.toNat == 32 || c.toNat == 9 || c.toNat == 10 || c.toNat == 11 ||
  c.toNat == 12 || c.toNat == 13

/-- JavaScript `String.prototype.trim` (`url.trim()`). -/
def jsTrim (s : List Char) : List Char :=
  ((s.dropWhile isJsSpace).reverse.dropWhile isJsSpace).reverse

/-- Scanner of `processedMessage.replace(new RegExp(escapedUrl, 'g'), rep)`:
the escaped pattern matches only the literal text `pat`, so the `g`-flagged
replace is a left-to-right, non-overlapping literal replace-all.
(`$`-sequences in the replacement string are not modelled; the replacement
here is always a shortened URL returned by the remote service.)
Structural recursion on a fuel argument; any fuel at least the input's
length gives the replacement's result (`replaceGo_congr`). -/
def replaceGo (pat rep : List Char) : Nat → List Char → List Char
  | 0, l => l
  | _ + 1, [] => []
  | fuel + 1, c :: t =>
    if pat.isPrefixOf (c :: t) then
      rep ++ replaceGo pat rep fuel (t.drop (pat.length - 1))
    else c :: replaceGo pat rep fuel t

/-- Literal global replacement (the caller in `processMessage` never passes
an empty pattern: matched URL tokens are non-empty). -/
def replaceAll (hay pat rep : List Char) : List Char :=
  if pat.isEmpty then hay else replaceGo pat rep hay.length hay

theorem replaceGo_nil (pat rep : List Char) (fuel : Nat) :
    replaceGo pat rep fuel [] = [] := by
  cases fuel with
  | zero => rfl
  | succ f => rfl

theorem replaceGo_congr (pat rep : List Char) :
    ∀ (fuel₁ : Nat) (l : List Char) (fuel₂ : Nat),
      l.length ≤ fuel₁ → l.length ≤ fuel₂ →
      replaceGo pat rep fuel₁ l = replaceGo pat rep fuel₂ l := by
  intro fuel₁
  induction fuel₁ with
  | zero =>
    intro l fuel₂ h₁ _
    have : l = [] := List.length_eq_zero.mp (by omega)
    subst this
    rw [replaceGo_nil, replaceGo_nil]
  | succ f ih =>
    intro l fuel₂ h₁ h₂
    cases l with
    | nil => rw [replaceGo_nil, replaceGo_nil]
    | cons c t =>
      cases fuel₂ with
      | zero => simp at h₂
      | succ g =>
        simp only [List.length_cons] at h₁ h₂
        by_cases hp : pat.isPrefixOf (c :: t)
        · simp only [replaceGo, if_pos hp]
          have hd := List.length_drop (pat.length - 1) t
          rw [ih (t.drop (pat.length - 1)) g (by omega) (by omega)]
        · simp only [replaceGo, if_neg hp]
          rw [ih t g (by omega) (by omega)]

theorem replaceAll_nil (pat rep : List Char) : replaceAll [] pat rep = [] := by
  unfold replaceAll
  by_cases h : pat.isEmpty <;> simp [h, replaceGo_nil]

theorem replaceAll_cons_match {pat : List Char} (rep : List Char)
    {c : Char} {t : List Char} (hne : pat ≠ [])
    (hp : pat.isPrefixOf (c :: t) = true) :
    replaceAll (c :: t) pat rep =
      rep ++ replaceAll (t.drop (pat.length - 1)) pat rep := by
  unfold replaceAll
  have he : pat.isEmpty = false := by
    cases pat with
    | nil => exact absurd rfl hne
    | cons a l => rfl
  simp only [he, if_false, Bool.false_eq_true]
  simp only [List.length_cons, replaceGo, if_pos hp]
  have hd := List.length_drop (pat.length - 1) t
  rw [replaceGo_congr pat rep t.length (t.drop (pat.length - 1))
    (t.drop (pat.length - 1)).length (by omega) (by omega)]

theorem replaceAll_cons_nomatch {pat : List Char} (rep : List Char)
    {c : Char} {t : List Char}
    (hp : pat.isPrefixOf (c :: t) = false) :
    replaceAll (c :: t) pat rep = c :: replaceAll t pat rep := by
  unfold replaceAll
  have hne : pat ≠ [] := by
    intro h
    subst h
    simp [List.isPrefixOf] at hp
  have he : pat.isEmpty = false := by
    cases pat with
    | nil => exact absurd rfl hne
    | cons a l => rfl
  simp only [he, if_false, Bool.false_eq_true]
  simp only [List.length_cons, replaceGo, hp, if_false, Bool.false_eq_true]

example : replaceAll "go http://a.b and http://a.b x".data "http://a.b".data "S".data =
    "go S and S x".data := by decide

/-- The remote linkara API (`axios.get` in `shortenUrl`), as an oracle:
given the zero-based index of the outbound request, the api key and the
processed URL sent as query parameters, it yields `Except.ok` with the
shortened URL (well-formed response with success status and a
`shortenedUrl` field) or `Except.error` with a message (any of: transport
or timeout failure, non-success application status, malformed response —
`shortenUrl` converts each into a thrown `Error`). -/
abbrev RemoteSvc := Nat → String → String → Except String String

/-- Value of `config.MAX_RETRIES` from `config.js`. -/
def MAX_RETRIES : Nat := 3

/-- JavaScript `String.prototype.startsWith` (case-sensitive). -/
def jsStartsWith (s pfx : String) : Bool :=
  pfx.data.isPrefixOf s.data

/-- The protocol normalisation at the top of `shortenUrl`:
`processedUrl = url` unless `url` starts with none of `http://`,
`https://`, `ftp://`, in which case `processedUrl = 'https://' + url`. -/
def normalizeUrl (url : String) : String :=
  if !jsStartsWith url "http://" && !jsStartsWith url "https://" &&
      !jsStartsWith url "ftp://" then
    "https://" ++ url
  else url

/-- Model of `shortenUrl`: issues exactly one outbound request carrying the
normalised URL, threading the request counter and logging the URL sent.
On a non-ok oracle answer the JS function throws (re-wrapped `Error`);
here that is the `Except.error` branch handed to the caller. -/
def shortenUrl (svc : RemoteSvc) (url apiKey : String) (n : Nat) :
    Except String String × Nat × List String :=
  (svc n apiKey (normalizeUrl url), n + 1, [normalizeUrl url])

/-- Model of `shortenUrlWithRetry` from `urlShortener.js`: try `shortenUrl`; on a
thrown error, if `retries > 0` wait one second (no observable effect in the
model) and recurse with `retries - 1`, else return the original URL
(the `retries > 0 / retries - 1` test on a natural number is the
successor/zero case split).
Result: (returned string, next request index, URLs sent in order). -/
def shortenUrlWithRetry (svc : RemoteSvc) (url apiKey : String) :
    Nat → Nat → String × Nat × List String
  | retries, n =>
    match shortenUrl svc url apiKey n, retries with
    | (Except.ok s, n', calls), _ => (s, n', calls)
    | (Except.error _, n', calls), r + 1 =>
      let rec' := shortenUrlWithRetry svc url apiKey r n'
      (rec'.1, rec'.2.1, calls ++ rec'.2.2)
    | (Except.error _, n', calls), 0 => (url, n', calls)

/-- The non-skip part of one iteration of the `for (const url of urls)`
loop of `processMessage`: shorten the trimmed token with the full retry
budget and, when the result differs from the token, replace every literal
occurrence of it in the running message.  Returns the updated running
message, the next request index and the URLs sent. -/
def processOne (svc : RemoteSvc) (apiKey url msg : String) (n : Nat) :
    String × Nat × List String :=
  let cleanUrl := String.mk (jsTrim url.data)
  let r1 := shortenUrlWithRetry svc cleanUrl apiKey MAX_RETRIES n
  (if r1.1 ≠ cleanUrl then String.mk (replaceAll msg.data cleanUrl.data r1.1.data)
   else msg,
   r1.2.1, r1.2.2)

/-- The `for (const url of urls)` loop of `processMessage`: for each
extracted token, trim it, skip it when it contains `linkara.xyz` (the
trimmed token's text is `jsTrim url.data`), otherwise run `processOne` and
continue on the updated running message.  The `try/catch` around the body
is dead in the model: no modelled step throws (the retry wrapper returns a
value even on total failure). -/
def processUrls (svc : RemoteSvc) (apiKey : String) :
    List String → String → Nat → String × Nat × List String
  | [], msg, n => (msg, n, [])
  | url :: rest, msg, n =>
    if jsIncludes (jsTrim url.data) "linkara.xyz".data then
      processUrls svc apiKey rest msg n
    else
      let r1 := processOne svc apiKey url msg n
      let r2 := processUrls svc apiKey rest r1.1 r1.2.1
      (r2.1, r2.2.1, r1.2.2 ++ r2.2.2)

/-- Model of `processMessage` on a string input (the non-string guard is in
`processMessageJS`): empty string is falsy and returned as is; with no
extracted URL the message is returned as is; otherwise the URL loop runs.
Result: (returned message, next request index, URLs sent in order). -/
def processMessage (svc : RemoteSvc) (message apiKey : String) (n : Nat) :
    String × Nat × List String :=
  if message = "" then (message, n, [])
  else
    let urls := extractUrls message
    if urls.isEmpty then (message, n, [])
    else processUrls svc apiKey urls message n

/-- JavaScript value, as far as the guards of this module inspect one. -/
inductive JsVal where
  | vstr (s : String)
  | vnum (n : Int)
  | vbool (b : Bool)
  | vnull
  | vundefined
deriving DecidableEq

/-- Model of `processMessage` including its input guard
`if (!message || typeof message !== 'string') return message;`:
falsy strings and every non-string value are returned unchanged with no
remote call; actual strings go through the pipeline. -/
def processMessageJS (svc : RemoteSvc) (m : JsVal) (apiKey : String)
    (n : Nat) : JsVal × Nat × List String :=
  match m with
  | .vstr s =>
    let r := processMessage svc s apiKey n
    (.vstr r.1, r.2.1, r.2.2)
  | v => (v, n, [])

/-- Model of `extractUrls` including its guard
`if (!message || typeof message !== 'string') return [];`. -/
def extractUrlsJS (m : JsVal) : List String :=
  match m with
  | .vstr s => if s = "" then [] else extractUrls s
  | _ => []

def svcAlwaysOk (s : String) : RemoteSvc := fun _ _ _ => Except.ok s

def svcAlwaysFail : RemoteSvc := fun _ _ _ => Except.error "network"

example :
    processMessage (svcAlwaysOk "S") "go http://a.b now" "k" 0 =
      ("go S now", 1, ["http://a.b"]) := by decide
example :
    processMessage (svcAlwaysOk "S") "go http://a.b http://a.b" "k" 0 =
      ("go S S", 2, ["http://a.b", "http://a.b"]) := by decide
example :
    processMessage svcAlwaysFail "go http://a.b now" "k" 0 =
      ("go http://a.b now", 4, ["http://a.b", "http://a.b", "http://a.b", "http://a.b"]) := by
  decide
example :
    processMessage (svcAlwaysOk "S") "see https://linkara.xyz/q now" "k" 5 =
      ("see https://linkara.xyz/q now", 5, []) := by decide
example : processMessage (svcAlwaysOk "S") "www.a.b" "k" 0 = ("S", 1, ["https://www.a.b"]) := by
  decide

/-- JavaScript `Array.prototype.join(' ')` (used by the spec's extraction
idempotence property `extract(extract(text).join(" "))`). -/
def joinSp : List String → String
  | [] => ""
  | [s] => s
  | s :: rest => s ++ " " ++ joinSp rest

/-- Version of `joinSp` at the character-list level. -/
def charJoin : List (List Char) → List Char
  | [] => []
  | [t] => t
  | t :: rest => t ++ ' ' :: charJoin rest

/-- A continuation that cannot extend a greedy URL-token match: either the
end of the input or a delimiter character. -/
def delimHeaded (l : List Char) : Prop :=
  l = [] ∨ ∃ d l', l = d :: l' ∧ isUrlDelim d = true

/-- Modelled from the spec's words, for comparison with the code's
`normalizeUrl`: "the input URL begins with one of the recognized schemes
`http://`, `https://`, `ftp://`, scheme matching being case-insensitive".
Used only to state what the spec asserts; the code's own check is the
case-sensitive `jsStartsWith` in `normalizeUrl`. -/
def beginsWithRecognizedSchemeCI (url : String) : Bool :=
  startsCI "http://".data url.data || startsCI "https://".data url.data ||
    startsCI "ftp://".data url.data

/-! ## Helper lemmas about the retry wrapper and the URL loop -/

theorem processUrls_nil (svc : RemoteSvc) (apiKey msg : String) (n : Nat) :
    processUrls svc apiKey [] msg n = (msg, n, []) := rfl

theorem processUrls_cons_skip (svc : RemoteSvc) (apiKey u : String)
    (rest : List String) (msg : String) (n : Nat)
    (h : jsIncludes (jsTrim u.data) "linkara.xyz".data = true) :
    processUrls svc apiKey (u :: rest) msg n = processUrls svc apiKey rest msg n := by
  simp only [processUrls]
  rw [if_pos h]

theorem processUrls_cons_go (svc : RemoteSvc) (apiKey u : String)
    (rest : List String) (msg : String) (n : Nat)
    (h : jsIncludes (jsTrim u.data) "linkara.xyz".data = false) :
    processUrls svc apiKey (u :: rest) msg n =
      ((processUrls svc apiKey rest (processOne svc apiKey u msg n).1
          (processOne svc apiKey u msg n).2.1).1,
       (processUrls svc apiKey rest (processOne svc apiKey u msg n).1
          (processOne svc apiKey u msg n).2.1).2.1,
       (processOne svc apiKey u msg n).2.2 ++
         (processUrls svc apiKey rest (processOne svc apiKey u msg n).1
            (processOne svc apiKey u msg n).2.1).2.2) := by
  simp only [processUrls]
  rw [if_neg (by simp [h])]

theorem shortenUrlWithRetry_ok {svc : RemoteSvc} {url apiKey : String} {n : Nat}
    {s : String} (retries : Nat)
    (hok : svc n apiKey (normalizeUrl url) = Except.ok s) :
    shortenUrlWithRetry svc url apiKey retries n = (s, n + 1, [normalizeUrl url]) := by
  cases retries with
  | zero => unfold shortenUrlWithRetry; simp [shortenUrl, hok]
  | succ r => unfold shortenUrlWithRetry; simp [shortenUrl, hok]

theorem shortenUrlWithRetry_counter (svc : RemoteSvc) (url apiKey : String)
    (retries n : Nat) :
    (shortenUrlWithRetry svc url apiKey retries n).2.1 =
      n + (shortenUrlWithRetry svc url apiKey retries n).2.2.length := by
  induction retries generalizing n with
  | zero =>
    cases h : svc n apiKey (normalizeUrl url) with
    | ok s => unfold shortenUrlWithRetry; simp [shortenUrl, h]
    | error e => unfold shortenUrlWithRetry; simp [shortenUrl, h]
  | succ r ih =>
    cases h : svc n apiKey (normalizeUrl url) with
    | ok s => unfold shortenUrlWithRetry; simp [shortenUrl, h]
    | error e =>
      unfold shortenUrlWithRetry
      simp only [shortenUrl, h]
      simp only [List.length_append, List.length_cons, List.length_nil]
      rw [ih (n + 1)]
      omega

theorem processOne_counter (svc : RemoteSvc) (apiKey u msg : String) (n : Nat) :
    (processOne svc apiKey u msg n).2.1 =
      n + (processOne svc apiKey u msg n).2.2.length := by
  simp only [processOne]
  exact shortenUrlWithRetry_counter svc (String.mk (jsTrim u.data)) apiKey MAX_RETRIES n

theorem shortenUrlWithRetry_calls_mem (svc : RemoteSvc) (url apiKey : String)
    (retries n : Nat) :
    ∀ c ∈ (shortenUrlWithRetry svc url apiKey retries n).2.2, c = normalizeUrl url := by
  induction retries generalizing n with
  | zero =>
    cases h : svc n apiKey (normalizeUrl url) with
    | ok s => unfold shortenUrlWithRetry; simp [shortenUrl, h]
    | error e => unfold shortenUrlWithRetry; simp [shortenUrl, h]
  | succ r ih =>
    cases h : svc n apiKey (normalizeUrl url) with
    | ok s => unfold shortenUrlWithRetry; simp [shortenUrl, h]
    | error e =>
      unfold shortenUrlWithRetry
      simp only [shortenUrl, h]
      intro c hc
      simp only [List.cons_append, List.nil_append, List.mem_cons] at hc
      rcases hc with rfl | hc
      · rfl
      · exact ih (n + 1) c hc

/-! ## C2: graceful fallback of the retry wrapper -/

/-- C2: if every call to the Shortening Client fails, `shortenUrlWithRetry`
performs exactly `retries + 1` client attempts (in particular
`MAX_RETRIES + 1` with the default budget), never raises (the embedding
returns a plain value on this path exactly as the JS function does), and
returns the exact original input `url` — not the normalised URL that was
sent on the wire. -/
theorem shortenUrlWithRetry_graceful_fallback (svc : RemoteSvc)
    (url apiKey : String) (retries n : Nat)
    (hfail : ∀ m k u, ∃ e, svc m k u = Except.error e) :
    shortenUrlWithRetry svc url apiKey retries n =
      (url, n + (retries + 1), List.replicate (retries + 1) (normalizeUrl url)) := by
  induction retries generalizing n with
  | zero =>
    obtain ⟨e, he⟩ := hfail n apiKey (normalizeUrl url)
    unfold shortenUrlWithRetry
    simp [shortenUrl, he]
  | succ r ih =>
    obtain ⟨e, he⟩ := hfail n apiKey (normalizeUrl url)
    unfold shortenUrlWithRetry
    simp only [shortenUrl, he]
    rw [ih (n + 1)]
    refine Prod.ext rfl (Prod.ext ?_ ?_)
    · simp; omega
    · simp [List.replicate_succ]

/-- Witness for C2 at a concrete always-failing service and the default
retry budget `MAX_RETRIES = 3`: four attempts, original URL returned. -/
theorem shortenUrlWithRetry_graceful_fallback_witness :
    shortenUrlWithRetry svcAlwaysFail "http://a.b" "k" MAX_RETRIES 0 =
      ("http://a.b", 0 + (MAX_RETRIES + 1),
        List.replicate (MAX_RETRIES + 1) (normalizeUrl "http://a.b")) :=
  shortenUrlWithRetry_graceful_fallback svcAlwaysFail "http://a.b" "k" MAX_RETRIES 0
    (fun _ _ _ => ⟨"network", rfl⟩)

/-! ## C5: no-op on URL-free text -/

/-- C5: whenever extraction finds no URL, `processMessage` returns the
input string unchanged (the same string value, hence byte-identical) and
issues zero remote calls (empty call log, request counter untouched). -/
theorem processMessage_noop_without_urls (svc : RemoteSvc)
    (message apiKey : String) (n : Nat) (h : extractUrls message = []) :
    processMessage svc message apiKey n = (message, n, []) := by
  unfold processMessage
  by_cases he : message = ""
  · simp [he]
  · simp [he, h]

/-- Witness for C5 on a concrete URL-free message. -/
theorem processMessage_noop_without_urls_witness :
    processMessage svcAlwaysFail "just plain text" "k" 7 = ("just plain text", 7, []) :=
  processMessage_noop_without_urls svcAlwaysFail "just plain text" "k" 7 (by decide)

/-! ## C3: skip of already-shortened messages -/

theorem processUrls_all_skip (svc : RemoteSvc) (apiKey : String) :
    ∀ (urls : List String) (msg : String) (n : Nat),
      (∀ u ∈ urls, jsIncludes (jsTrim u.data) "linkara.xyz".data = true) →
      processUrls svc apiKey urls msg n = (msg, n, []) := by
  intro urls
  induction urls with
  | nil => intro msg n _; rfl
  | cons u rest ih =>
    intro msg n h
    have hu := h u (List.mem_cons_self u rest)
    simp only [processUrls]
    rw [if_pos hu]
    exact ih msg n (fun v hv => h v (List.mem_cons_of_mem u hv))

/-- C3: if every URL token extracted from the message contains the
shortening service's own domain marker `linkara.xyz` (in particular
whenever each token's host is `linkara.xyz`, since the host text occurs
literally in the token), `processMessage` returns the message unchanged and
issues zero remote calls: every token takes the SKIP branch in extraction
order and the running message is never modified. -/
theorem processMessage_skip_already_shortened (svc : RemoteSvc)
    (message apiKey : String) (n : Nat)
    (h : ∀ u ∈ extractUrls message, jsIncludes (jsTrim u.data) "linkara.xyz".data = true) :
    processMessage svc message apiKey n = (message, n, []) := by
  unfold processMessage
  by_cases he : message = ""
  · simp [he]
  · by_cases hu : (extractUrls message).isEmpty
    · simp [he, hu]
    · simp only [he, if_false, hu, if_neg, Bool.false_eq_true]
      exact processUrls_all_skip svc apiKey (extractUrls message) message n h

/-- Witness for C3 on a message whose only URL is already a linkara link. -/
theorem processMessage_skip_already_shortened_witness :
    processMessage svcAlwaysFail "see https://linkara.xyz/q now" "k" 5 =
      ("see https://linkara.xyz/q now", 5, []) :=
  processMessage_skip_already_shortened svcAlwaysFail "see https://linkara.xyz/q now" "k" 5
    (by decide)

/-! ## C9: non-string input -/

/-- C9 counterexample: the claim says a malformed (non-string) message is a
`FatalError` that propagates, and that `processMessage` does not return a
value-level result for non-string input.  The code's first guard
(`if (!message || typeof message !== 'string') return message;`) instead
returns the input as a value: on the number `5` the pipeline returns
`(5, unchanged counter, no calls)` — a value-level result, no error. -/
theorem processMessage_nonstring_counterexample :
    processMessageJS svcAlwaysFail (JsVal.vnum 5) "k" 0 = (JsVal.vnum 5, 0, []) := rfl

/-- C9 amended: for every non-string input, `processMessage` returns the
input unchanged at value level, with zero remote calls and no error
raised (the guard short-circuits before the per-URL loop). -/
theorem processMessage_nonstring_passthrough (svc : RemoteSvc) (apiKey : String)
    (n : Nat) (m : JsVal) (h : ∀ s, m ≠ JsVal.vstr s) :
    processMessageJS svc m apiKey n = (m, n, []) := by
  cases m with
  | vstr s => exact absurd rfl (h s)
  | vnum k => rfl
  | vbool b => rfl
  | vnull => rfl
  | vundefined => rfl

/-- Witness for amended C9 at the concrete non-string input `null`. -/
theorem processMessage_nonstring_passthrough_witness :
    processMessageJS svcAlwaysFail JsVal.vnull "k" 9 = (JsVal.vnull, 9, []) :=
  processMessage_nonstring_passthrough svcAlwaysFail "k" 9 JsVal.vnull
    (fun _ h => JsVal.noConfusion h)

/-! ## C10: extraction is total and empty on no match -/

theorem extractCore_eq_nil (cs : List Char)
    (h : ∀ i, i < cs.length → urlTokenAt (cs.drop i) = none) :
    extractCore cs = [] := by
  induction cs with
  | nil => rfl
  | cons c rest ih =>
    have h0 : urlTokenAt (c :: rest) = none := by
      have := h 0 (by simp)
      simpa using this
    rw [extractCore_cons_none h0]
    exact ih (fun i hi => by
      have := h (i + 1) (by simp only [List.length_cons]; omega)
      simpa using this)

/-- C10: URL extraction is total — a Lean function defined on every
`JsVal`, including non-string and empty inputs, returning an ordered list
(on non-strings the guard yields `[]`) — and it returns the empty sequence
whenever no URL matches at any position of the text. -/
theorem extractUrls_total_empty_on_no_match :
    (∀ s : String,
        (∀ i, i < s.data.length → urlTokenAt (s.data.drop i) = none) →
        extractUrls s = []) ∧
    (∀ m : JsVal, (∀ s, m ≠ JsVal.vstr s) → extractUrlsJS m = []) := by
  constructor
  · intro s h
    unfold extractUrls
    rw [extractCore_eq_nil s.data h]
    rfl
  · intro m h
    cases m with
    | vstr s => exact absurd rfl (h s)
    | vnum k => rfl
    | vbool b => rfl
    | vnull => rfl
    | vundefined => rfl

/-- Witness for C10: a concrete URL-free string and a concrete non-string. -/
theorem extractUrls_total_empty_on_no_match_witness :
    extractUrls "no links at all" = [] ∧ extractUrlsJS (JsVal.vnum 3) = [] :=
  ⟨extractUrls_total_empty_on_no_match.1 "no links at all" (by decide),
   extractUrls_total_empty_on_no_match.2 (JsVal.vnum 3) (fun _ h => JsVal.noConfusion h)⟩

/-! ## C8: URL normalisation before the remote call -/

/-- C8 counterexample: the claim makes scheme matching case-insensitive.
The code's check is the case-sensitive `String.prototype.startsWith`, so
`"HTTP://x"` — which does begin with a recognised scheme under the spec's
case-insensitive reading — is normalised to `"https://HTTP://x"` and that,
not the unchanged input, is the URL sent to the remote service. -/
theorem normalizeUrl_ci_counterexample :
    beginsWithRecognizedSchemeCI "HTTP://x" = true ∧
    normalizeUrl "HTTP://x" = "https://HTTP://x" ∧
    normalizeUrl "HTTP://x" ≠ "HTTP://x" ∧
    (shortenUrl svcAlwaysFail "HTTP://x" "k" 0).2.2 = ["https://HTTP://x"] := by
  refine ⟨by decide, by decide, by decide, by decide⟩

/-- C8 amended: with case-SENSITIVE scheme matching (`startsWith` on the
literal texts `http://`, `https://`, `ftp://`): a URL beginning with none
of the schemes is sent as `"https://" + url`, a URL beginning with one of
them is sent unchanged, and the single outbound request of `shortenUrl`
carries exactly the normalised URL. -/
theorem shortenUrl_normalizes_case_sensitive (svc : RemoteSvc)
    (url apiKey : String) (n : Nat) :
    (shortenUrl svc url apiKey n).2.2 = [normalizeUrl url] ∧
    ((jsStartsWith url "http://" || jsStartsWith url "https://" ||
        jsStartsWith url "ftp://") = true → normalizeUrl url = url) ∧
    ((jsStartsWith url "http://" || jsStartsWith url "https://" ||
        jsStartsWith url "ftp://") = false →
      normalizeUrl url = "https://" ++ url) := by
  refine ⟨rfl, ?_, ?_⟩
  · intro h
    simp only [Bool.or_eq_true] at h
    unfold normalizeUrl
    rcases h with (h | h) | h <;> simp [h]
  · intro h
    simp only [Bool.or_eq_false_iff] at h
    unfold normalizeUrl
    simp [h.1.1, h.1.2, h.2]

/-- Witness for amended C8 at the scheme-free URL `www.x` (prefixed) and
the scheme-bearing URL `http://a` (unchanged). -/
theorem shortenUrl_normalizes_case_sensitive_witness :
    (shortenUrl svcAlwaysFail "www.x" "k" 0).2.2 = [normalizeUrl "www.x"] ∧
    normalizeUrl "www.x" = "https://" ++ "www.x" ∧
    normalizeUrl "http://a" = "http://a" :=
  ⟨(shortenUrl_normalizes_case_sensitive svcAlwaysFail "www.x" "k" 0).1,
   (shortenUrl_normalizes_case_sensitive svcAlwaysFail "www.x" "k" 0).2.2 (by decide),
   (shortenUrl_normalizes_case_sensitive svcAlwaysFail "http://a" "k" 0).2.1 (by decide)⟩

/-! ## C4: tokens containing the linkara marker -/

theorem data_mk (l : List Char) : (String.mk l).data = l := rfl

/-- C4 counterexample: the claim also asserts that a token containing
`linkara.xyz` "appears unmodified in the returned message".  The skip only
means the token's own step leaves the message alone; a later substitution
for a different URL can rewrite text inside the skipped token.  Concretely,
`http://x.linkara.xyz?q=http://b` is skipped (it contains the marker), but
the substitution for the second token `http://b` also fires inside it, so
it does not appear in the result. -/
theorem processUrls_linkara_counterexample :
    jsIncludes (jsTrim "http://x.linkara.xyz?q=http://b".data) "linkara.xyz".data = true ∧
    extractUrls "http://x.linkara.xyz?q=http://b http://b" =
      ["http://x.linkara.xyz?q=http://b", "http://b"] ∧
    processMessage (svcAlwaysOk "S") "http://x.linkara.xyz?q=http://b http://b" "k" 0 =
      ("http://x.linkara.xyz?q=S S", 1, ["http://b"]) ∧
    jsIncludes "http://x.linkara.xyz?q=S S".data
      "http://x.linkara.xyz?q=http://b".data = false := by
  refine ⟨by decide, by decide, by decide, by decide⟩

/-- C4 amended: a URL token whose (trimmed) text contains `linkara.xyz`
anywhere — host, path or query — is classified as already shortened: its
processing step issues no remote call and leaves the running message
unmodified (first conjunct), and indeed every URL that is ever sent to the
remote service comes from a token whose trimmed text does *not* contain the
marker (second conjunct).  The token's text may still change through
substitutions performed for other URLs. -/
theorem processUrls_linkara_no_call (svc : RemoteSvc) (apiKey : String) :
    (∀ (url : String) (rest : List String) (msg : String) (n : Nat),
        jsIncludes (jsTrim url.data) "linkara.xyz".data = true →
        processUrls svc apiKey (url :: rest) msg n =
          processUrls svc apiKey rest msg n) ∧
    (∀ (urls : List String) (msg : String) (n : Nat) (c : String),
        c ∈ (processUrls svc apiKey urls msg n).2.2 →
        ∃ u ∈ urls, jsIncludes (jsTrim u.data) "linkara.xyz".data = false ∧
          c = normalizeUrl (String.mk (jsTrim u.data))) := by
  constructor
  · intro url rest msg n h
    exact processUrls_cons_skip svc apiKey url rest msg n h
  · intro urls
    induction urls with
    | nil => intro msg n c hc; simp [processUrls_nil] at hc
    | cons u rest ih =>
      intro msg n c hc
      by_cases hskip : jsIncludes (jsTrim u.data) "linkara.xyz".data = true
      · rw [processUrls_cons_skip svc apiKey u rest msg n hskip] at hc
        obtain ⟨v, hv, hrest⟩ := ih msg n c hc
        exact ⟨v, List.mem_cons_of_mem u hv, hrest⟩
      · have hskip' : jsIncludes (jsTrim u.data) "linkara.xyz".data = false := by
          simpa using hskip
        rw [processUrls_cons_go svc apiKey u rest msg n hskip'] at hc
        simp only [List.mem_append] at hc
        rcases hc with hc | hc
        · refine ⟨u, List.mem_cons_self u rest, hskip', ?_⟩
          simp only [processOne] at hc
          exact shortenUrlWithRetry_calls_mem svc (String.mk (jsTrim u.data))
            apiKey MAX_RETRIES n c hc
        · obtain ⟨v, hv, hrest⟩ := ih _ _ c hc
          exact ⟨v, List.mem_cons_of_mem u hv, hrest⟩

/-- Witness for amended C4: a concrete linkara URL is skipped — the step
equals processing the rest of the token list on the unchanged message. -/
theorem processUrls_linkara_no_call_witness :
    processUrls svcAlwaysFail "k" ["https://linkara.xyz/a"] "m" 3 =
      processUrls svcAlwaysFail "k" [] "m" 3 :=
  (processUrls_linkara_no_call svcAlwaysFail "k").1 "https://linkara.xyz/a" [] "m" 3
    (by decide)

/-! ## C6: sequential order of shortening and substitution -/

theorem processUrls_counter (svc : RemoteSvc) (apiKey : String) :
    ∀ (urls : List String) (msg : String) (n : Nat),
      (processUrls svc apiKey urls msg n).2.1 =
        n + (processUrls svc apiKey urls msg n).2.2.length := by
  intro urls
  induction urls with
  | nil => intro msg n; rfl
  | cons u rest ih =>
    intro msg n
    by_cases hskip : jsIncludes (jsTrim u.data) "linkara.xyz".data = true
    · rw [processUrls_cons_skip svc apiKey u rest msg n hskip]
      exact ih msg n
    · have hskip' : jsIncludes (jsTrim u.data) "linkara.xyz".data = false := by
        simpa using hskip
      rw [processUrls_cons_go svc apiKey u rest msg n hskip']
      simp only [List.length_append]
      rw [ih]
      rw [processOne_counter]
      omega

/-- C6: the pipeline is a single sequential pass in token order.  First
conjunct: processing `l1 ++ l2` equals processing `l1` first — all its
remote calls and substitutions — and only then processing `l2`, starting
from the message already rewritten by `l1` and from the request counter
left by `l1` (so for `A` before `B`, `A`'s substitution into the running
message is complete before `B`'s first remote call is issued).  Second
conjunct: the request counter advances by exactly one per logged call, so
the positions of `l1`'s calls all precede those of `l2`'s. -/
theorem processUrls_sequential (svc : RemoteSvc) (apiKey : String) :
    (∀ (l1 l2 : List String) (msg : String) (n : Nat),
        processUrls svc apiKey (l1 ++ l2) msg n =
          ((processUrls svc apiKey l2 (processUrls svc apiKey l1 msg n).1
              (processUrls svc apiKey l1 msg n).2.1).1,
           (processUrls svc apiKey l2 (processUrls svc apiKey l1 msg n).1
              (processUrls svc apiKey l1 msg n).2.1).2.1,
           (processUrls svc apiKey l1 msg n).2.2 ++
             (processUrls svc apiKey l2 (processUrls svc apiKey l1 msg n).1
                (processUrls svc apiKey l1 msg n).2.1).2.2)) ∧
    (∀ (urls : List String) (msg : String) (n : Nat),
        (processUrls svc apiKey urls msg n).2.1 =
          n + (processUrls svc apiKey urls msg n).2.2.length) := by
  refine ⟨?_, processUrls_counter svc apiKey⟩
  intro l1
  induction l1 with
  | nil => intro l2 msg n; rfl
  | cons u l1' ih =>
    intro l2 msg n
    rw [List.cons_append]
    by_cases hskip : jsIncludes (jsTrim u.data) "linkara.xyz".data = true
    · rw [processUrls_cons_skip svc apiKey u (l1' ++ l2) msg n hskip,
        processUrls_cons_skip svc apiKey u l1' msg n hskip]
      exact ih l2 msg n
    · have hskip' : jsIncludes (jsTrim u.data) "linkara.xyz".data = false := by
        simpa using hskip
      rw [processUrls_cons_go svc apiKey u (l1' ++ l2) msg n hskip',
        processUrls_cons_go svc apiKey u l1' msg n hskip']
      simp only [ih]
      simp [List.append_assoc]

/-! ## Infrastructure for C1 and C7: anatomy of regex tokens -/

theorem startsCI_length_le : ∀ {p cs : List Char}, startsCI p cs = true →
    p.length ≤ cs.length := by
  intro p
  induction p with
  | nil => intro cs _; simp
  | cons a q ih =>
    intro cs h
    cases cs with
    | nil => simp [startsCI] at h
    | cons c t =>
      simp only [startsCI, Bool.and_eq_true] at h
      simp only [List.length_cons]
      have := ih h.2
      omega

theorem isUrlDelimN_lcn {c : Char} (h : isUrlDelim c = true) :
    isUrlDelimN (lcn c) = true := by
  have h' : isUrlDelimN c.toNat = true := h
  unfold lcn
  rw [if_neg]
  · exact h'
  · intro hc
    unfold isUrlDelimN at h'
    simp only [Bool.or_eq_true, beq_iff_eq] at h'
    omega

theorem charCI_delim {p d : Char} (hp : isUrlDelimN (lcn p) = false)
    (hd : isUrlDelim d = true) : charCI p d = false := by
  simp only [charCI]
  rw [beq_eq_false_iff_ne]
  intro he
  have h1 := isUrlDelimN_lcn hd
  rw [he, hp] at h1
  exact Bool.false_ne_true h1

theorem startsCI_take_nondelim : ∀ (q cs : List Char), startsCI q cs = true →
    (∀ x ∈ q, isUrlDelimN (lcn x) = false) →
    ∀ c ∈ cs.take q.length, isUrlDelim c = false := by
  intro q
  induction q with
  | nil => intro cs _ _ c hc; simp at hc
  | cons a q' ih =>
    intro cs h hq c hc
    cases cs with
    | nil => simp [startsCI] at h
    | cons b t =>
      simp only [startsCI, Bool.and_eq_true] at h
      simp only [List.length_cons, List.take_succ_cons, List.mem_cons] at hc
      rcases hc with rfl | hc
      · cases hx : isUrlDelim c with
        | false => rfl
        | true =>
          exfalso
          have hbc : lcn c = lcn a := by
            have := h.1
            simpa [charCI] using this
          have h1 := isUrlDelimN_lcn hx
          rw [hbc, hq a (List.mem_cons_self _ _)] at h1
          exact Bool.false_ne_true h1
      · exact ih t h.2 (fun x hx => hq x (List.mem_cons_of_mem a hx)) c hc

theorem urlPrefixAt_some {cs : List Char} {k : Nat} (h : urlPrefixAt cs = some k) :
    k ≤ cs.length ∧ (∀ c ∈ cs.take k, isUrlDelim c = false) ∧ 0 < k := by
  unfold urlPrefixAt at h
  split_ifs at h with h1 h2 h3 h4
  · cases h
    exact ⟨startsCI_length_le h1, startsCI_take_nondelim _ _ h1 (by decide), by omega⟩
  · cases h
    exact ⟨startsCI_length_le h2, startsCI_take_nondelim _ _ h2 (by decide), by omega⟩
  · cases h
    exact ⟨startsCI_length_le h3, startsCI_take_nondelim _ _ h3 (by decide), by omega⟩
  · cases h
    exact ⟨startsCI_length_le h4, startsCI_take_nondelim _ _ h4 (by decide), by omega⟩

theorem drop_takeWhile_head (p : Char → Bool) :
    ∀ (l : List Char) (d : Char) (r' : List Char),
      l.drop (l.takeWhile p).length = d :: r' → p d = false := by
  intro l
  induction l with
  | nil => intro d r' h; simp at h
  | cons c t ih =>
    intro d r' h
    by_cases hc : p c
    · rw [List.takeWhile_cons, if_pos hc] at h
      simp only [List.length_cons, List.drop_succ_cons] at h
      exact ih d r' h
    · rw [List.takeWhile_cons, if_neg hc] at h
      simp only [List.length_nil, List.drop_zero] at h
      cases h
      simpa using hc

theorem urlTokenAt_shape {cs t r : List Char} (h : urlTokenAt cs = some (t, r)) :
    cs = t ++ r ∧ t ≠ [] ∧ (∀ c ∈ t, isUrlDelim c = false) ∧ delimHeaded r ∧
      ∃ k, urlPrefixAt cs = some k ∧ k < t.length ∧
        t.take k = cs.take k ∧
        t.drop k = (cs.drop k).takeWhile (fun c => !isUrlDelim c) := by
  unfold urlTokenAt at h
  cases hp : urlPrefixAt cs with
  | none => rw [hp] at h; cases h
  | some k =>
    rw [hp] at h
    simp only at h
    by_cases hb : ((cs.drop k).takeWhile (fun c => !isUrlDelim c)).isEmpty
    · rw [if_pos hb] at h; cases h
    · rw [if_neg hb] at h
      cases h
      obtain ⟨hkle, htakechars, hkpos⟩ := urlPrefixAt_some hp
      set body := (cs.drop k).takeWhile (fun c => !isUrlDelim c) with hbody
      have hbne : body ≠ [] := by
        intro h0
        rw [h0] at hb
        simp at hb
      have hblen : 0 < body.length := List.length_pos.mpr hbne
      have htklen : (cs.take k).length = k := by
        rw [List.length_take]
        omega
      have hpw : body ++ (cs.drop k).drop body.length = cs.drop k := by
        obtain ⟨w, hw⟩ :
            List.IsPrefix ((cs.drop k).takeWhile (fun c => !isUrlDelim c)) (cs.drop k) :=
          List.takeWhile_prefix _
        have hw' : w = (cs.drop k).drop body.length := by
          rw [← hw, ← hbody, List.drop_left]
        rw [← hbody] at hw
        rw [← hw', hw]
      have hdd : cs.drop (k + body.length) = (cs.drop k).drop body.length := by
        rw [List.drop_drop, Nat.add_comm]
      constructor
      · -- cs = token ++ rest
        rw [hdd]
        conv_lhs => rw [← List.take_append_drop k cs]
        rw [← hpw]
        simp [List.append_assoc]
      refine ⟨by simp [hbne], ?_, ?_, k, rfl, ?_, ?_, ?_⟩
      · intro c hc
        rcases List.mem_append.mp hc with hc | hc
        · exact htakechars c hc
        · have := List.mem_takeWhile_imp hc
          simpa using this
      · -- delimHeaded rest
        rw [hdd]
        cases hx : (cs.drop k).drop body.length with
        | nil => exact Or.inl rfl
        | cons d r' =>
          refine Or.inr ⟨d, r', rfl, ?_⟩
          have := drop_takeWhile_head (fun c => !isUrlDelim c) (cs.drop k) d r'
            (by rw [← hbody]; exact hx)
          simpa using this
      · simp only [List.length_append]
        omega
      · rw [List.take_append_of_le_length (by omega)]
        simp [List.take_take]
      · rw [List.drop_append_of_le_length (by omega),
          List.drop_eq_nil_of_le (by omega), List.nil_append]

theorem takeWhile_append_allTrue (p : Char → Bool) :
    ∀ (x y : List Char), (∀ c ∈ x, p c = true) →
      (x ++ y).takeWhile p = x ++ y.takeWhile p := by
  intro x
  induction x with
  | nil => intro y _; simp
  | cons c x' ih =>
    intro y h
    rw [List.cons_append, List.takeWhile_cons,
      if_pos (h c (List.mem_cons_self _ _)), ih y (fun a ha => h a (List.mem_cons_of_mem c ha))]
    rfl

theorem takeWhile_delimHeaded {l : List Char} (hl : delimHeaded l) :
    l.takeWhile (fun c => !isUrlDelim c) = [] := by
  rcases hl with rfl | ⟨d, l', rfl, hd⟩
  · rfl
  · rw [List.takeWhile_cons, if_neg (by simp [hd])]

/-- The scheme alternatives never look past the end of a token: with a
delimiter (or nothing) after `t`, `startsCI q (t ++ l)` does not depend on
`l` — it equals the in-bounds match on `t` alone. -/
theorem startsCI_tail_indep (q : List Char)
    (hq : ∀ x ∈ q, isUrlDelimN (lcn x) = false) :
    ∀ (t l : List Char), delimHeaded l →
      startsCI q (t ++ l) = (decide (q.length ≤ t.length) && startsCI q t) := by
  induction q with
  | nil => intro t l _; simp [startsCI]
  | cons a q' ih =>
    intro t l hl
    cases t with
    | nil =>
      simp only [List.nil_append, List.length_cons, List.length_nil]
      rw [show decide (q'.length + 1 ≤ 0) = false from by simp, Bool.false_and]
      rcases hl with rfl | ⟨d, l', rfl, hd⟩
      · simp [startsCI]
      · simp only [startsCI]
        rw [charCI_delim (hq a (List.mem_cons_self _ _)) hd, Bool.false_and]
    | cons c t' =>
      simp only [List.cons_append, startsCI, List.length_cons, List.append_eq]
      rw [ih (fun x hx => hq x (List.mem_cons_of_mem a hx)) t' l hl]
      rw [show decide (q'.length + 1 ≤ t'.length + 1) = decide (q'.length ≤ t'.length)
        from by simp]
      rw [Bool.and_left_comm]

theorem urlPrefixAt_tail_indep (t : List Char) {l r : List Char}
    (hl : delimHeaded l) (hr : delimHeaded r) :
    urlPrefixAt (t ++ l) = urlPrefixAt (t ++ r) := by
  unfold urlPrefixAt
  rw [startsCI_tail_indep "https://".data (by decide) t l hl,
    startsCI_tail_indep "https://".data (by decide) t r hr,
    startsCI_tail_indep "http://".data (by decide) t l hl,
    startsCI_tail_indep "http://".data (by decide) t r hr,
    startsCI_tail_indep "ftp://".data (by decide) t l hl,
    startsCI_tail_indep "ftp://".data (by decide) t r hr,
    startsCI_tail_indep "www.".data (by decide) t l hl,
    startsCI_tail_indep "www.".data (by decide) t r hr]

/-- A token matched by the regex matches again, as the same token, whatever
delimiter-headed continuation follows it.  This is the heart of extraction
idempotence and of duplicate-token reasoning. -/
theorem urlTokenAt_stable {cs t r : List Char} (h : urlTokenAt cs = some (t, r)) :
    ∀ l, delimHeaded l → urlTokenAt (t ++ l) = some (t, l) := by
  intro l hl
  obtain ⟨hcs, hne, hchars, hr, k, hp, hkt, htake, hdrop⟩ := urlTokenAt_shape h
  have hkle : k ≤ t.length := Nat.le_of_lt hkt
  have hpre : urlPrefixAt (t ++ l) = some k := by
    rw [urlPrefixAt_tail_indep t hl hr, ← hcs]
    exact hp
  unfold urlTokenAt
  rw [hpre]
  simp only
  have hdropapp : (t ++ l).drop k = t.drop k ++ l :=
    List.drop_append_of_le_length hkle
  have hbody : ((t ++ l).drop k).takeWhile (fun c => !isUrlDelim c) = t.drop k := by
    rw [hdropapp,
      takeWhile_append_allTrue _ (t.drop k) l
        (fun c hc => by simp [hchars c (List.mem_of_mem_drop hc)]),
      takeWhile_delimHeaded hl, List.append_nil]
  rw [hbody]
  have htkne : t.drop k ≠ [] := by
    intro h0
    rw [List.drop_eq_nil_iff] at h0
    omega
  rw [if_neg (by simp [htkne])]
  have hlen : k + (t.drop k).length = t.length := by
    simp only [List.length_drop]
    omega
  rw [List.take_append_of_le_length hkle, hlen, List.drop_left,
    List.take_append_drop]

theorem extractAux_stable :
    ∀ (fuel : Nat) (cs t : List Char), t ∈ extractAux fuel cs →
      ∀ l, delimHeaded l → urlTokenAt (t ++ l) = some (t, l) := by
  intro fuel
  induction fuel with
  | zero => intro cs t ht; simp [extractAux] at ht
  | succ f ih =>
    intro cs t ht l hl
    cases hu : urlTokenAt cs with
    | some tr =>
      obtain ⟨t₁, r₁⟩ := tr
      simp only [extractAux, hu, List.mem_cons] at ht
      rcases ht with rfl | ht'
      · exact urlTokenAt_stable hu l hl
      · exact ih r₁ t ht' l hl
    | none =>
      cases cs with
      | nil => simp [extractAux, hu] at ht
      | cons c rest =>
        simp only [extractAux, hu] at ht
        exact ih rest t ht l hl

theorem extractCore_stable {cs t : List Char} (ht : t ∈ extractCore cs) :
    ∀ l, delimHeaded l → urlTokenAt (t ++ l) = some (t, l) :=
  extractAux_stable cs.length cs t ht

theorem extractCore_token_facts {cs t : List Char} (ht : t ∈ extractCore cs) :
    t ≠ [] ∧ (∀ c ∈ t, isUrlDelim c = false) := by
  have hstable := extractCore_stable ht [] (Or.inl rfl)
  rw [List.append_nil] at hstable
  obtain ⟨_, hne, hchars, _, _⟩ := urlTokenAt_shape hstable
  exact ⟨hne, hchars⟩

/-- No token can start on a delimiter character. -/
theorem urlTokenAt_delim_cons {c : Char} (hc : isUrlDelim c = true)
    (x : List Char) : urlTokenAt (c :: x) = none := by
  have hl : delimHeaded (c :: x) := Or.inr ⟨c, x, rfl, hc⟩
  have e1 := startsCI_tail_indep "https://".data (by decide) [] (c :: x) hl
  have e2 := startsCI_tail_indep "http://".data (by decide) [] (c :: x) hl
  have e3 := startsCI_tail_indep "ftp://".data (by decide) [] (c :: x) hl
  have e4 := startsCI_tail_indep "www.".data (by decide) [] (c :: x) hl
  simp only [List.nil_append, List.length_nil] at e1 e2 e3 e4
  unfold urlTokenAt urlPrefixAt
  rw [e1, e2, e3, e4]
  simp

/-! ## C7: extraction idempotence -/

theorem extractCore_charJoin :
    ∀ (ts : List (List Char)),
      (∀ t ∈ ts, ∀ l, delimHeaded l → urlTokenAt (t ++ l) = some (t, l)) →
      extractCore (charJoin ts) = ts := by
  intro ts
  induction ts with
  | nil => intro _; rfl
  | cons t ts' ih =>
    intro h
    cases ts' with
    | nil =>
      have hst := h t (List.mem_cons_self _ _) [] (Or.inl rfl)
      rw [List.append_nil] at hst
      show extractCore t = [t]
      rw [extractCore_some hst, extractCore_nil]
    | cons t2 ts'' =>
      have hst := h t (List.mem_cons_self _ _) (' ' :: charJoin (t2 :: ts''))
        (Or.inr ⟨' ', charJoin (t2 :: ts''), rfl, by decide⟩)
      show extractCore (t ++ ' ' :: charJoin (t2 :: ts'')) = t :: t2 :: ts''
      rw [extractCore_some hst,
        extractCore_cons_none (urlTokenAt_delim_cons (by decide) (charJoin (t2 :: ts''))),
        ih (fun t' ht' => h t' (List.mem_cons_of_mem t ht'))]

theorem extractCore_idem (cs : List Char) :
    extractCore (charJoin (extractCore cs)) = extractCore cs :=
  extractCore_charJoin (extractCore cs) (fun _ ht => extractCore_stable ht)

theorem joinSp_data : ∀ (L : List String),
    (joinSp L).data = charJoin (L.map String.data) := by
  intro L
  induction L with
  | nil => rfl
  | cons s L' ih =>
    cases L' with
    | nil => rfl
    | cons s2 L'' =>
      show (s ++ " " ++ joinSp (s2 :: L'')).data =
        s.data ++ ' ' :: charJoin ((s2 :: L'').map String.data)
      rw [String.data_append, String.data_append, ih, List.append_assoc]
      rfl

/-- C7: extracting URLs, joining the extracted tokens with a single space,
and extracting again yields the same token sequence:
`extractUrls (extractUrls(text).join(" ")) = extractUrls text`.  Each token
re-matches as itself because tokens contain no delimiter, and the space (a
delimiter) both stops the greedy body and can start no token. -/
theorem extractUrls_idempotent (message : String) :
    extractUrls (joinSp (extractUrls message)) = extractUrls message := by
  unfold extractUrls
  rw [joinSp_data]
  have hmm : ((extractCore message.data).map String.mk).map String.data =
      extractCore message.data := by
    rw [List.map_map]
    have : String.data ∘ String.mk = id := funext data_mk
    rw [this, List.map_id]
  rw [hmm, extractCore_idem]

/-! ## C1: duplicate URLs -/

theorem replaceAll_skip_block (pat rep : List Char) (_hpat : pat ≠ []) :
    ∀ (x l : List Char),
      (∀ i, i < x.length → pat.isPrefixOf ((x ++ l).drop i) = false) →
      replaceAll (x ++ l) pat rep = x ++ replaceAll l pat rep := by
  intro x
  induction x with
  | nil => intro l _; simp
  | cons c x' ih =>
    intro l h
    have h0 : pat.isPrefixOf (c :: (x' ++ l)) = false := by
      have := h 0 (by simp)
      simpa using this
    rw [List.cons_append, replaceAll_cons_nomatch rep h0,
      ih l (fun i hi => by
        have := h (i + 1) (by simp only [List.length_cons]; omega)
        simpa using this)]
    rfl

theorem replaceAll_head_match (pat rep l : List Char) (hpat : pat ≠ []) :
    replaceAll (pat ++ l) pat rep = rep ++ replaceAll l pat rep := by
  cases pat with
  | nil => exact absurd rfl hpat
  | cons p0 pt =>
    rw [List.cons_append]
    have hp : (p0 :: pt).isPrefixOf (p0 :: (pt ++ l)) = true := by
      rw [List.isPrefixOf_iff_prefix]
      exact ⟨l, by simp⟩
    rw [replaceAll_cons_match rep (by simp) hp]
    simp only [List.length_cons, Nat.add_sub_cancel, List.drop_left]

theorem replaceAll_of_not_includes {hay pat : List Char} (rep : List Char)
    (h : jsIncludes hay pat = false) : replaceAll hay pat rep = hay := by
  induction hay with
  | nil => exact replaceAll_nil pat rep
  | cons c t ih =>
    simp only [jsIncludes, Bool.or_eq_false_iff] at h
    rw [replaceAll_cons_nomatch rep h.1, ih h.2]

theorem jsIncludes_of_middle (x y : List Char) {pat : List Char} (hpat : pat ≠ []) :
    jsIncludes (x ++ (pat ++ y)) pat = true := by
  induction x with
  | nil =>
    cases pat with
    | nil => exact absurd rfl hpat
    | cons p0 pt =>
      simp only [List.nil_append, List.cons_append, jsIncludes, List.append_eq]
      have hp : (p0 :: pt).isPrefixOf (p0 :: (pt ++ y)) = true := by
        rw [List.isPrefixOf_iff_prefix]
        exact ⟨y, by simp⟩
      rw [hp, Bool.true_or]
  | cons c x' ih =>
    simp only [List.cons_append, jsIncludes, List.append_eq, ih, Bool.or_true]

/-- Literal replace-all on a text with exactly two (non-overlapping,
spanning-free) occurrences of `A` rewrites both to `s` in one pass. -/
theorem replaceAll_two_occ {A s : List Char} (pre mid suf : List Char)
    (hA : A ≠ [])
    (hpre : ∀ i, i < pre.length →
      A.isPrefixOf ((pre ++ A ++ mid ++ A ++ suf).drop i) = false)
    (hmid : ∀ i, i < mid.length → A.isPrefixOf ((mid ++ A ++ suf).drop i) = false)
    (hsuf : jsIncludes suf A = false) :
    replaceAll (pre ++ A ++ mid ++ A ++ suf) A s = pre ++ s ++ mid ++ s ++ suf := by
  have e : pre ++ A ++ mid ++ A ++ suf = pre ++ (A ++ (mid ++ (A ++ suf))) := by
    simp [List.append_assoc]
  have e2 : mid ++ A ++ suf = mid ++ (A ++ suf) := by
    simp [List.append_assoc]
  rw [e]
  rw [replaceAll_skip_block A s hA pre (A ++ (mid ++ (A ++ suf)))
    (fun i hi => by have := hpre i hi; rwa [e] at this)]
  rw [replaceAll_head_match A s (mid ++ (A ++ suf)) hA]
  rw [replaceAll_skip_block A s hA mid (A ++ suf)
    (fun i hi => by have := hmid i hi; rwa [e2] at this)]
  rw [replaceAll_head_match A s suf hA]
  rw [replaceAll_of_not_includes s hsuf]
  simp [List.append_assoc]

theorem isJsSpace_delim {c : Char} (h : isJsSpace c = true) :
    isUrlDelim c = true := by
  unfold isJsSpace at h
  unfold isUrlDelim isUrlDelimN
  simp only [Bool.or_eq_true, beq_iff_eq] at h ⊢
  omega

theorem dropWhile_eq_self_of_false (p : Char → Bool) (l : List Char)
    (h : ∀ c ∈ l, p c = false) : l.dropWhile p = l := by
  cases l with
  | nil => rfl
  | cons c t =>
    rw [List.dropWhile_cons, if_neg (by simp [h c (List.mem_cons_self _ _)])]

theorem jsTrim_eq_self {l : List Char} (h : ∀ c ∈ l, isJsSpace c = false) :
    jsTrim l = l := by
  unfold jsTrim
  rw [dropWhile_eq_self_of_false _ l h,
    dropWhile_eq_self_of_false _ l.reverse (fun c hc => h c (List.mem_reverse.mp hc)),
    List.reverse_reverse]

/-- C1 counterexample: a message containing the same URL twice leads to TWO
remote shortening calls, not one — the loop iterates over the extracted
match list, which keeps duplicates, and the second iteration calls the
retry wrapper again (its substitution is then a no-op because the first
pass already replaced every occurrence).  The two occurrences are still
replaced identically. -/
theorem processMessage_duplicate_counterexample :
    (processMessage (svcAlwaysOk "S") "go http://a.b http://a.b" "k" 0).2.2.length = 2 ∧
    (processMessage (svcAlwaysOk "S") "go http://a.b http://a.b" "k" 0).2.2.length ≠ 1 ∧
    processMessage (svcAlwaysOk "S") "go http://a.b http://a.b" "k" 0 =
      ("go S S", 2, ["http://a.b", "http://a.b"]) := by
  refine ⟨by decide, by decide, by decide⟩

/-- C1 amended: for a message whose extraction yields the same non-linkara
token `A` twice, with the service succeeding with a constant value `s`,
`processMessage` issues exactly TWO remote calls — one per occurrence, both
for `A` — and both occurrences of `A` are replaced identically by `s` (the
first pass substitutes every occurrence; the second pass substitutes
nothing because no occurrence of `A` remains).  The occurrence hypotheses
say that `A` occurs exactly where the decomposition places it and that no
new occurrence of `A` arises after substitution. -/
theorem processMessage_duplicate_two_calls (svc : RemoteSvc) (apiKey s : String)
    (message : String) (A pre mid suf : List Char) (n : Nat)
    (hex : extractCore message.data = [A, A])
    (hdec : message.data = pre ++ A ++ mid ++ A ++ suf)
    (hskip : jsIncludes A "linkara.xyz".data = false)
    (hok : ∀ m k u, svc m k u = Except.ok s)
    (hpre : ∀ i, i < pre.length →
      A.isPrefixOf ((pre ++ A ++ mid ++ A ++ suf).drop i) = false)
    (hmid : ∀ i, i < mid.length → A.isPrefixOf ((mid ++ A ++ suf).drop i) = false)
    (hsuf : jsIncludes suf A = false)
    (hres : jsIncludes (pre ++ s.data ++ mid ++ s.data ++ suf) A = false) :
    processMessage svc message apiKey n =
      (String.mk (pre ++ s.data ++ mid ++ s.data ++ suf), n + 2,
        [normalizeUrl (String.mk A), normalizeUrl (String.mk A)]) := by
  obtain ⟨hAne, hAchars⟩ := extractCore_token_facts
    (show A ∈ extractCore message.data from by rw [hex]; exact List.mem_cons_self _ _)
  have hAlen : 0 < A.length := List.length_pos.mpr hAne
  have htrim : jsTrim A = A := jsTrim_eq_self (fun c hc => by
    cases hx : isJsSpace c with
    | false => rfl
    | true =>
      have := isJsSpace_delim hx
      rw [hAchars c hc] at this
      exact absurd this Bool.false_ne_true)
  have hclean : String.mk (jsTrim (String.mk A).data) = String.mk A := by
    rw [data_mk, htrim]
  have hskip' : jsIncludes (jsTrim (String.mk A).data) "linkara.xyz".data = false := by
    rw [data_mk, htrim]
    exact hskip
  have hsneA : s ≠ String.mk A := by
    intro h0
    have hsd : s.data = A := by rw [h0]
    have hocc := jsIncludes_of_middle pre (mid ++ (s.data ++ suf))
      (show s.data ≠ [] from by rw [hsd]; exact hAne)
    rw [hsd] at hocc
    have e : pre ++ s.data ++ mid ++ s.data ++ suf =
        pre ++ (s.data ++ (mid ++ (s.data ++ suf))) := by simp [List.append_assoc]
    rw [e, hsd] at hres
    rw [hocc] at hres
    exact absurd hres (by simp)
  have hone1 : processOne svc apiKey (String.mk A) message n =
      (String.mk (pre ++ s.data ++ mid ++ s.data ++ suf), n + 1,
        [normalizeUrl (String.mk A)]) := by
    simp only [processOne]
    rw [hclean,
      shortenUrlWithRetry_ok MAX_RETRIES (hok n apiKey (normalizeUrl (String.mk A)))]
    dsimp only
    rw [if_pos hsneA, data_mk, htrim, hdec,
      replaceAll_two_occ pre mid suf hAne hpre hmid hsuf]
  have hone2 : processOne svc apiKey (String.mk A)
      (String.mk (pre ++ s.data ++ mid ++ s.data ++ suf)) (n + 1) =
      (String.mk (pre ++ s.data ++ mid ++ s.data ++ suf), n + 2,
        [normalizeUrl (String.mk A)]) := by
    simp only [processOne]
    rw [hclean,
      shortenUrlWithRetry_ok MAX_RETRIES (hok (n + 1) apiKey (normalizeUrl (String.mk A)))]
    dsimp only
    rw [if_pos hsneA, data_mk, data_mk, htrim,
      replaceAll_of_not_includes s.data hres]
  have hne : message ≠ "" := by
    intro h0
    rw [h0] at hdec
    have := congrArg List.length hdec
    simp only [String.data] at this
    simp only [List.length_append, List.length_nil] at this
    omega
  have hurls : extractUrls message = [String.mk A, String.mk A] := by
    unfold extractUrls
    rw [hex]
    rfl
  unfold processMessage
  rw [if_neg hne, hurls]
  simp only [List.isEmpty_cons, Bool.false_eq_true, if_false]
  rw [processUrls_cons_go svc apiKey (String.mk A) [String.mk A] message n hskip',
    hone1]
  dsimp only
  rw [processUrls_cons_go svc apiKey (String.mk A) []
    (String.mk (pre ++ s.data ++ mid ++ s.data ++ suf)) (n + 1) hskip', hone2]
  simp [processUrls_nil]

/-- Witness for amended C1: the spec's own concrete scenario, with the
corrected call count: input
`"check http://foo.com and http://foo.com again"` with the service
returning `http://lnk.ra/x1` gives
`"check http://lnk.ra/x1 and http://lnk.ra/x1 again"` — both occurrences
replaced identically — with exactly two remote calls recorded. -/
theorem processMessage_duplicate_two_calls_witness :
    processMessage (svcAlwaysOk "http://lnk.ra/x1")
        "check http://foo.com and http://foo.com again" "k" 0 =
      (String.mk ("check ".data ++ "http://lnk.ra/x1".data ++ " and ".data ++
          "http://lnk.ra/x1".data ++ " again".data), 0 + 2,
        [normalizeUrl (String.mk "http://foo.com".data),
         normalizeUrl (String.mk "http://foo.com".data)]) :=
  processMessage_duplicate_two_calls (svcAlwaysOk "http://lnk.ra/x1") "k"
    "http://lnk.ra/x1" "check http://foo.com and http://foo.com again"
    "http://foo.com".data "check ".data " and ".data " again".data 0
    (by decide) (by decide) (by decide) (fun _ _ _ => rfl)
    (by decide) (by decide) (by decide) (by decide)
